import Mathlib

/-!
# Shallow embedding of funpiler's parser-combinator front end

The repository (`src/parser/mod.rs`, with a near-identical duplicate of the
combinator core in `src/parser.rs`, plus `src/parser/ast.rs` and
`src/ast.rs`) implements parser combinators over string slices.  This file
embeds those functions over `List Char` and proves the spec claims about
them.

Modelling notes, applying throughout:

* A Rust `&str` slice is a `List Char`.  Every (non-panicking) slice the code
  takes is at a character boundary, so byte-offset slicing becomes dropping a
  number of characters; where the code computes a raw *byte* offset that may
  fall inside a character (`TokenBase::parse`), `sliceFrom` performs genuine
  byte-offset slicing, with `none` standing for the out-of-bounds /
  mid-character slice on which Rust panics.
* `Option (List Char × α)` is `Option<parser::Result<'a, T>>`: `none` is the
  no-match signal, `some (source, value)` carries the remaining input and the
  value (field order `source`, `value` as in the struct).
* Rust's `char::is_whitespace / is_alphabetic / is_alphanumeric` are Unicode
  classes; they are modelled by Lean's ASCII `Char.isWhitespace / isAlpha /
  isAlphanum`, which agree with them on all ASCII inputs (every concrete
  input in the claims is ASCII).  `char::is_ascii_digit` is exactly
  `Char.isDigit`.
* The `while` loop of `ZeroOrMore::parse` may diverge; it is embedded with a
  fuel counter of `source.length + 1` rounds, which is enough whenever the
  inner parser consumes input on success, so on that (proved) precondition
  the embedding computes exactly what the loop computes.
* Code that panics (the `todo!()` expression parser, the `.unwrap()` in
  `number_base`) is embedded in a panic-aware result type `PRes`, with the
  combinators it flows through duplicated as `pparse` versions that
  propagate the panic the way Rust unwinding does.
-/

namespace Funpiler

/-- `Parser<'a, Output = α>`: a function from input to an optional pair of
remaining input and produced value (`parser::Result`). -/
abbrev Parser (α : Type) : Type := List Char → Option (List Char × α)

/-- `Constant::parse`: always succeeds with the fixed value, consuming nothing. -/
def Constant.parse (value : α) : Parser α := fun source => some (source, value)

/-- `Choice::parse`: run the left parser; keep its result if it is `Some`,
otherwise run the right parser on the original input. -/
def Choice.parse (p q : Parser α) : Parser α := fun source =>
  let res := p source
  if res.isSome then res else q source

/-- `Bind::parse`: run the parser, feed its value to `function`, and run the
returned parser on the remaining input. -/
def Bind.parse (p : Parser α) (function : α → Parser β) : Parser β := fun source =>
  match p source with
  | none => none
  | some (rem, value) => function value rem

/-- `And::parse`: run the first parser, discard its value, run the second on
the remaining input. -/
def And.parse (p : Parser α) (q : Parser β) : Parser β := fun source =>
  match p source with
  | none => none
  | some (rem, _) => q rem

/-- `Maybe::parse`: wrap a success, turn a failure into a zero-consumption
success with `none`. -/
def Maybe.parse (p : Parser α) : Parser (Option α) := fun source =>
  match p source with
  | some res => some (res.1, some res.2)
  | none => some (source, none)

/-- `Parser::map`: defined, as in the source, as `bind` into a `Constant`. -/
def map (p : Parser α) (function : α → β) : Parser β :=
  Bind.parse p (fun value => Constant.parse (function value))

/-- The `while let` loop of `ZeroOrMore::parse`, with explicit fuel.  `acc`
is the `result` vector; values are pushed at the back, so they appear in
encounter order.  `none` means the fuel ran out, i.e. the Rust loop is still
running after `fuel` iterations. -/
def ZeroOrMore.run (p : Parser α) : Nat → List Char → List α → Option (List Char × List α)
  | 0, _, _ => none
  | fuel + 1, remaining, acc =>
    match p remaining with
    | some (rem, value) => ZeroOrMore.run p fuel rem (acc ++ [value])
    | none => some (remaining, acc)

/-- `ZeroOrMore::parse`: the loop, started with `source.length + 1` rounds of
fuel — enough iterations whenever the inner parser consumes input on
success, because the remaining input shrinks every round. -/
def ZeroOrMore.parse (p : Parser α) : Parser (List α) := fun source =>
  ZeroOrMore.run p (source.length + 1) source []

/-- `Parser::parse_to_completion` exactly as written in both copies of the
source (`src/parser/mod.rs` lines 55-64 and `src/parser.rs` lines 52-61):
`None` maps to `Err`, a success whose remaining input is the empty string
maps to `Err`, and a success with non-empty remaining input maps to `Ok`.
`none` here is `Err(())`. -/
def parse_to_completion (p : Parser α) (source : List Char) : Option α :=
  match p source with
  | none => none
  | some ([], _) => none
  | some (_, value) => some value

/-- The `ends_at` computation of `whitespace`: the position of the first
non-whitespace character, `none` when every character is whitespace. -/
def whitespaceEndsAt : List Char → Option Nat
  | [] => none
  | c :: rest => if c.isWhitespace then (whitespaceEndsAt rest).map (· + 1) else some 0

/-- `whitespace`: a maximal run of one-or-more whitespace characters;
fails on empty input and when the first character is not whitespace. -/
def whitespace : Parser Unit := fun source =>
  if source.isEmpty then none
  else
    match whitespaceEndsAt source with
    | none => some ([], ())
    | some 0 => none
    | some (idx + 1) => some (source.drop (idx + 1), ())

/-- The scan of `single_line_comment` after the `"//"` marker: the input
after the first newline, or `none` when no newline follows. -/
def slcAux : List Char → Option (List Char)
  | [] => none
  | c :: rest => if c = '\n' then some rest else slcAux rest

/-- `single_line_comment`: `"//"` through the end of line (consuming the
newline) or through the end of input. -/
def single_line_comment : Parser Unit := fun source =>
  match source with
  | c1 :: c2 :: rest =>
    if c1 = '/' ∧ c2 = '/' then
      match slcAux rest with
      | some rem => some (rem, ())
      | none => some ([], ())
    else none
  | _ => none

/-- The scan of `multi_line_comment` after the `"/*"` marker: the input
after the first `"*/"`, or `none` when no closing marker follows. -/
def mlcAux : List Char → Option (List Char)
  | [] => none
  | c :: rest =>
    match rest with
    | [] => none
    | c2 :: rest2 => if c = '*' ∧ c2 = '/' then some rest2 else mlcAux rest

/-- `multi_line_comment`: `"/*"` through the first `"*/"`; signals no match
when no closing marker exists before the end of input. -/
def multi_line_comment : Parser Unit := fun source =>
  match source with
  | c1 :: c2 :: rest =>
    if c1 = '/' ∧ c2 = '*' then
      match mlcAux rest with
      | some rem => some (rem, ())
      | none => none
    else none
  | _ => none

/-- `comments`: `single_line_comment.or(multi_line_comment)`. -/
def comments : Parser Unit := Choice.parse single_line_comment multi_line_comment

/-- `ignored`: `ZeroOrMore::new(whitespace.or(comments)).map(|_| ())`. -/
def ignored : Parser Unit :=
  map (ZeroOrMore.parse (Choice.parse whitespace comments)) (fun _ => ())

/-- Byte-offset slicing `&source[n..]` over a character list: `some` of the
suffix when `n` is the byte length of a prefix of whole characters, `none`
when the Rust slice would panic (offset out of bounds or inside a
character). -/
def sliceFrom : List Char → Nat → Option (List Char)
  | s, 0 => some s
  | [], _ + 1 => none
  | c :: rest, n + 1 =>
    if c.utf8Size ≤ n + 1 then sliceFrom rest (n + 1 - c.utf8Size) else none

/-- `TokenBase::parse`.  With `whitespace_end` set, on finding a whitespace
character `ch` after the literal the source slices the *original* input at
byte offset `idx + ch.len_utf8()` where `idx` is `0` (the first index of the
suffix iterator), i.e. at `ch.len_utf8()` — not at the end of the literal.
That behaviour is kept as written. -/
def TokenBase.parse (token : List Char) (whitespace_end : Bool) : Parser (List Char) :=
  fun source =>
    if !(token.isPrefixOf source) then none
    else if !whitespace_end then some (source.drop token.length, token)
    else
      match source.drop token.length with
      | [] => some ([], token)
      | ch :: _ =>
        if ch.isWhitespace then
          match sliceFrom source ch.utf8Size with
          | some rem => some (rem, token)
          | none => none
        else none

/-- `token`: the literal recognizer followed, in the same step, by `ignored`. -/
def token (tk : List Char) (whitespace_end : Bool) : Parser (List Char) :=
  Bind.parse (TokenBase.parse tk whitespace_end)
    (fun t => And.parse ignored (Constant.parse t))

def function_t : Parser (List Char) := token (String.toList "function") true

def if_t : Parser (List Char) := token (String.toList "if") true

def else_t : Parser (List Char) := token (String.toList "else") true

def return_t : Parser (List Char) := token (String.toList "return") true

def var_t : Parser (List Char) := token (String.toList "var") true

def while_t : Parser (List Char) := token (String.toList "while") true

def comma_t : Parser (List Char) := token (String.toList ",") false

def semicolon_t : Parser (List Char) := token (String.toList ";") false

def left_paren_t : Parser (List Char) := token (String.toList "(") false

def right_paren_t : Parser (List Char) := token (String.toList ")") false

def left_brace_t : Parser (List Char) := token (String.toList "\x7b") false

def right_brace_t : Parser (List Char) := token (String.toList "\x7d") false

def not_t : Parser (List Char) := token (String.toList "!") false

def equal_t : Parser (List Char) := token (String.toList "==") false

def not_equal_t : Parser (List Char) := token (String.toList "!=") false

def plus_t : Parser (List Char) := token (String.toList "+") false

def minus_t : Parser (List Char) := token (String.toList "-") false

def star_t : Parser (List Char) := token (String.toList "*") false

def slash_t : Parser (List Char) := token (String.toList "/") false

def assign_t : Parser (List Char) := token (String.toList "=") false

/-- The `end` computation of `number_base`: the length of the maximal
leading run of ASCII digits (each digit is one byte, so the byte count of
the loop is the character count). -/
def numEnd : List Char → Nat
  | [] => 0
  | c :: rest => if c.isDigit then numEnd rest + 1 else 0

/-- `str::parse::<i64>` on a string of ASCII digits: `Ok` of its value when
it fits in `i64` (at most `2^63 - 1`; there is no sign here), `Err` — `none`
— on the empty string or on overflow. -/
def parseI64 (ds : List Char) : Option Int :=
  if ds = [] then none
  else
    let n : Nat := ds.foldl (fun acc c => acc * 10 + (c.toNat - '0'.toNat)) 0
    if n ≤ 9223372036854775807 then some (n : Int) else none

/-- A panic-aware parse outcome: `panics` when the Rust code panics,
`res r` when it returns `r`. -/
inductive PRes (α : Type) : Type where
  | panics : PRes α
  | res : Option (List Char × α) → PRes α
deriving DecidableEq

/-- A parser whose run may panic. -/
abbrev PParser (α : Type) : Type := List Char → PRes α

/-- A parser that never panics, seen as a panic-aware one. -/
def liftP (p : Parser α) : PParser α := fun source => PRes.res (p source)

/-- `Bind::parse` with the panic of either stage propagated, as Rust
unwinding propagates it. -/
def Bind.pparse (p : PParser α) (function : α → PParser β) : PParser β := fun source =>
  match p source with
  | .panics => .panics
  | .res none => .res none
  | .res (some (rem, value)) => function value rem

/-- `And::parse` with panics propagated. -/
def And.pparse (p : PParser α) (q : PParser β) : PParser β := fun source =>
  match p source with
  | .panics => .panics
  | .res none => .res none
  | .res (some (rem, _)) => q rem

/-- `Constant::parse`, panic-aware (it never panics). -/
def Constant.pparse (value : α) : PParser α := fun source => .res (some (source, value))

/-- `Choice::parse` with panics propagated: evaluating the left parser comes
first, so its panic pre-empts the right branch. -/
def Choice.pparse (p q : PParser α) : PParser α := fun source =>
  match p source with
  | .panics => .panics
  | .res (some r) => .res (some r)
  | .res none => q source

/-- The loop of `ZeroOrMore::parse`, panic-aware, with fuel; exhausted fuel
(the loop still running, impossible when the inner parser consumes input on
success) is reported as `panics`. -/
def ZeroOrMore.prun (p : PParser α) : Nat → List Char → List α → PRes (List α)
  | 0, _, _ => .panics
  | fuel + 1, remaining, acc =>
    match p remaining with
    | .panics => .panics
    | .res (some (rem, value)) => ZeroOrMore.prun p fuel rem (acc ++ [value])
    | .res none => .res (some (remaining, acc))

/-- `ZeroOrMore::parse`, panic-aware. -/
def ZeroOrMore.pparse (p : PParser α) : PParser (List α) := fun source =>
  ZeroOrMore.prun p (source.length + 1) source []

/-- `number_base`: the maximal run of ASCII digits, at least one required,
converted by `source[0..end].parse().unwrap()` — the `unwrap` panics when
the conversion overflows `i64`. -/
def number_base : PParser Int := fun source =>
  let e := numEnd source
  if e = 0 then .res none
  else
    match parseI64 (source.take e) with
    | some value => .res (some (source.drop e, value))
    | none => .panics

/-- `number`: `number_base.bind(|tk| ignored.and(Constant::new(tk)))`. -/
def number : PParser Int :=
  Bind.pparse number_base (fun tk => And.pparse (liftP ignored) (Constant.pparse tk))

/-- The run length taken by the loop of `id_base`: the maximal leading run
of alphanumeric-or-underscore characters (`end` counts bytes; every slice it
induces is at the corresponding character boundary). -/
def idEnd : List Char → Nat
  | [] => 0
  | c :: rest => if c.isAlphanum ∨ c = '_' then idEnd rest + 1 else 0

/-- `id_base`: the first character must be alphabetic or an underscore, then
a maximal run of alphanumeric-or-underscore characters is taken. -/
def id_base : Parser (List Char) := fun source =>
  match source with
  | [] => none
  | c :: _ =>
    if ¬ c.isAlpha ∧ c ≠ '_' then none
    else
      let e := idEnd source
      if e = 0 then none
      else some (source.drop e, source.take e)

/-- `id`: `id_base.bind(|tk| ignored.and(Constant::new(tk)))`. -/
def id : Parser (List Char) :=
  Bind.parse id_base (fun tk => And.parse ignored (Constant.parse tk))

/-- `ast::Node` (src/ast.rs), with `If`/`Function`/`While` struct payloads
inlined as constructor fields. -/
inductive Node : Type where
  | Number (value : Int)
  | Id (name : List Char)
  | Not (operand : Node)
  | Equal (left right : Node)
  | NotEqual (left right : Node)
  | Add (left right : Node)
  | Subtract (left right : Node)
  | Multiply (left right : Node)
  | Divide (left right : Node)
  | Call (callee : List Char) (args : List Node)
  | Return (expr : Node)
  | Block (statements : List Node)
  | If (condition consequence alternative : Node)
  | Function (name : List Char) (parameters : List (List Char)) (body : Node)
  | Var (name : List Char) (initializer : Node)
  | Assignment (name : List Char) (value : Node)
  | While (condition body : Node)

/-- `expression` (src/parser/ast.rs): its body is `todo!()`, so it panics on
every input. -/
def expression : PParser Node := fun _ => PRes.panics

/-- `arguments` (src/parser/ast.rs): `expression` bound into a zero-or-more
of `comma_t.and(expression)` with the first value pushed at the front
(`args.insert(0, arg)`), or else the constant empty list. -/
def arguments : PParser (List Node) :=
  Choice.pparse
    (Bind.pparse expression fun arg =>
      Bind.pparse (ZeroOrMore.pparse (And.pparse (liftP comma_t) expression)) fun args =>
        Constant.pparse (arg :: args))
    (Constant.pparse [])

/-! ## Properties -/

/-- The suffix invariant for a parser: on success, the remaining input is a
suffix of the input the attempt was given. -/
def SuffixP (p : Parser α) : Prop :=
  ∀ s rem v, p s = some (rem, v) → rem <:+ s

/-- The suffix invariant for a panic-aware parser. -/
def SuffixPP (p : PParser α) : Prop :=
  ∀ s rem v, p s = PRes.res (some (rem, v)) → rem <:+ s

/-- A parser that consumes at least one character whenever it succeeds. -/
def Shrinking (p : Parser α) : Prop :=
  ∀ s rem v, p s = some (rem, v) → rem.length < s.length

/-- `Accum p s rem vs`: repeatedly running `p` from input `s` until it fails
reaches remaining input `rem` having produced the values `vs`, in encounter
order. -/
inductive Accum (p : Parser α) : List Char → List Char → List α → Prop where
  | stop (s : List Char) : p s = none → Accum p s s []
  | step (s s' rem : List Char) (v : α) (vs : List α) :
      p s = some (s', v) → Accum p s' rem vs → Accum p s rem (v :: vs)

/-! ## Suffix lemmas for the primitive recognizers -/

theorem whitespace_suffix : SuffixP whitespace := by
  intro s rem v h
  unfold whitespace at h
  split at h
  · exact absurd h (by simp)
  · split at h
    · simp only [Option.some.injEq, Prod.mk.injEq] at h
      exact h.1 ▸ List.nil_suffix
    · exact absurd h (by simp)
    · simp only [Option.some.injEq, Prod.mk.injEq] at h
      exact h.1 ▸ List.drop_suffix _ s

theorem slcAux_suffix : ∀ (s rem : List Char), slcAux s = some rem → rem <:+ s := by
  intro s
  induction s with
  | nil => intro rem h; simp [slcAux] at h
  | cons c rest ih =>
    intro rem h
    unfold slcAux at h
    split at h
    · simp only [Option.some.injEq] at h
      exact h ▸ List.suffix_cons c rest
    · exact (ih rem h).trans (List.suffix_cons c rest)

theorem mlcAux_suffix : ∀ (s rem : List Char), mlcAux s = some rem → rem <:+ s := by
  intro s
  induction s with
  | nil => intro rem h; simp [mlcAux] at h
  | cons c rest ih =>
    intro rem h
    cases rest with
    | nil => simp [mlcAux] at h
    | cons c2 rest2 =>
      simp only [mlcAux] at h
      split at h
      · simp only [Option.some.injEq] at h
        rw [← h]
        exact (List.suffix_cons c2 rest2).trans (List.suffix_cons c (c2 :: rest2))
      · exact (ih rem h).trans (List.suffix_cons c (c2 :: rest2))

theorem single_line_comment_suffix : SuffixP single_line_comment := by
  intro s rem v h
  cases s with
  | nil => simp [single_line_comment] at h
  | cons c1 s1 =>
    cases s1 with
    | nil => simp [single_line_comment] at h
    | cons c2 rest =>
      simp only [single_line_comment] at h
      split at h
      · split at h
        · next rem2 heq =>
          simp only [Option.some.injEq, Prod.mk.injEq] at h
          exact h.1 ▸ ((slcAux_suffix rest rem2 heq).trans
            (List.suffix_cons c2 rest)).trans (List.suffix_cons c1 (c2 :: rest))
        · simp only [Option.some.injEq, Prod.mk.injEq] at h
          exact h.1 ▸ List.nil_suffix
      · exact absurd h (by simp)

theorem multi_line_comment_suffix : SuffixP multi_line_comment := by
  intro s rem v h
  cases s with
  | nil => simp [multi_line_comment] at h
  | cons c1 s1 =>
    cases s1 with
    | nil => simp [multi_line_comment] at h
    | cons c2 rest =>
      simp only [multi_line_comment] at h
      split at h
      · split at h
        · next rem2 heq =>
          simp only [Option.some.injEq, Prod.mk.injEq] at h
          exact h.1 ▸ ((mlcAux_suffix rest rem2 heq).trans
            (List.suffix_cons c2 rest)).trans (List.suffix_cons c1 (c2 :: rest))
        · exact absurd h (by simp)
      · exact absurd h (by simp)

theorem sliceFrom_suffix : ∀ (s : List Char) (n : Nat) (rem : List Char),
    sliceFrom s n = some rem → rem <:+ s := by
  intro s
  induction s with
  | nil =>
    intro n rem h
    cases n with
    | zero => simp only [sliceFrom, Option.some.injEq] at h; exact h ▸ List.suffix_rfl
    | succ m => simp [sliceFrom] at h
  | cons c rest ih =>
    intro n rem h
    cases n with
    | zero => simp only [sliceFrom, Option.some.injEq] at h; exact h ▸ List.suffix_rfl
    | succ m =>
      unfold sliceFrom at h
      split at h
      · exact (ih _ rem h).trans (List.suffix_cons c rest)
      · exact absurd h (by simp)

theorem tokenBase_suffix (tk : List Char) (ws : Bool) : SuffixP (TokenBase.parse tk ws) := by
  intro s rem v h
  unfold TokenBase.parse at h
  split at h
  · exact absurd h (by simp)
  · split at h
    · simp only [Option.some.injEq, Prod.mk.injEq] at h
      exact h.1 ▸ List.drop_suffix _ s
    · split at h
      · simp only [Option.some.injEq, Prod.mk.injEq] at h
        exact h.1 ▸ List.nil_suffix
      · split at h
        · split at h
          · simp only [Option.some.injEq, Prod.mk.injEq] at h
            exact h.1 ▸ sliceFrom_suffix s _ _ (by assumption)
          · exact absurd h (by simp)
        · exact absurd h (by simp)

theorem id_base_suffix : SuffixP id_base := by
  intro s rem v h
  cases s with
  | nil => simp [id_base] at h
  | cons c rest =>
    simp only [id_base] at h
    split at h
    · exact absurd h (by simp)
    · split at h
      · exact absurd h (by simp)
      · simp only [Option.some.injEq, Prod.mk.injEq] at h
        exact h.1 ▸ List.drop_suffix _ _

/-! ## Suffix closure under the combinators -/

theorem constant_suffix (v : α) : SuffixP (Constant.parse v) := by
  intro s rem v' h
  simp only [Constant.parse, Option.some.injEq, Prod.mk.injEq] at h
  exact h.1 ▸ List.suffix_rfl

theorem choice_suffix {p q : Parser α} (hp : SuffixP p) (hq : SuffixP q) :
    SuffixP (Choice.parse p q) := by
  intro s rem v h
  simp only [Choice.parse] at h
  split at h
  · exact hp s rem v h
  · exact hq s rem v h

theorem bind_suffix {p : Parser α} {f : α → Parser β} (hp : SuffixP p)
    (hf : ∀ v, SuffixP (f v)) : SuffixP (Bind.parse p f) := by
  intro s rem v h
  unfold Bind.parse at h
  split at h
  · exact absurd h (by simp)
  · next rem1 v1 heq => exact (hf v1 rem1 rem v h).trans (hp s rem1 v1 heq)

theorem and_suffix {p : Parser α} {q : Parser β} (hp : SuffixP p) (hq : SuffixP q) :
    SuffixP (And.parse p q) := by
  intro s rem v h
  unfold And.parse at h
  split at h
  · exact absurd h (by simp)
  · next rem1 v1 heq => exact (hq rem1 rem v h).trans (hp s rem1 v1 heq)

theorem maybe_suffix {p : Parser α} (hp : SuffixP p) : SuffixP (Maybe.parse p) := by
  intro s rem v h
  unfold Maybe.parse at h
  split at h
  · next res heq =>
    obtain ⟨r1, r2⟩ := res
    simp only [Option.some.injEq, Prod.mk.injEq] at h
    exact h.1 ▸ hp s r1 r2 heq
  · simp only [Option.some.injEq, Prod.mk.injEq] at h
    exact h.1 ▸ List.suffix_rfl

theorem map_suffix {p : Parser α} {f : α → β} (hp : SuffixP p) : SuffixP (map p f) :=
  bind_suffix hp (fun v => constant_suffix (f v))

theorem zeroOrMore_run_suffix {p : Parser α} (hp : SuffixP p) :
    ∀ (fuel : Nat) (s rem : List Char) (acc vs : List α),
      ZeroOrMore.run p fuel s acc = some (rem, vs) → rem <:+ s := by
  intro fuel
  induction fuel with
  | zero => intro s rem acc vs h; simp [ZeroOrMore.run] at h
  | succ n ih =>
    intro s rem acc vs h
    unfold ZeroOrMore.run at h
    split at h
    · next s' v heq => exact (ih s' rem _ vs h).trans (hp s s' v heq)
    · simp only [Option.some.injEq, Prod.mk.injEq] at h
      exact h.1 ▸ List.suffix_rfl

theorem zeroOrMore_suffix {p : Parser α} (hp : SuffixP p) : SuffixP (ZeroOrMore.parse p) :=
  fun s rem vs h => zeroOrMore_run_suffix hp (s.length + 1) s rem [] vs h

theorem comments_suffix : SuffixP comments :=
  choice_suffix single_line_comment_suffix multi_line_comment_suffix

theorem ignored_suffix : SuffixP ignored :=
  map_suffix (zeroOrMore_suffix (choice_suffix whitespace_suffix comments_suffix))

theorem token_suffix (tk : List Char) (ws : Bool) : SuffixP (token tk ws) :=
  bind_suffix (tokenBase_suffix tk ws)
    (fun t => and_suffix ignored_suffix (constant_suffix t))

theorem id_suffix : SuffixP Funpiler.id :=
  bind_suffix id_base_suffix (fun t => and_suffix ignored_suffix (constant_suffix t))

/-! ## Consumption lemmas: the repetition precondition -/

theorem whitespace_shrinking : Shrinking whitespace := by
  intro s rem v h
  unfold whitespace at h
  split at h
  · exact absurd h (by simp)
  · next hne =>
    have hpos : 0 < s.length := by
      cases s with
      | nil => simp at hne
      | cons c rest => simp
    split at h
    · simp only [Option.some.injEq, Prod.mk.injEq] at h
      rw [← h.1]
      simpa using hpos
    · exact absurd h (by simp)
    · next idx =>
      simp only [Option.some.injEq, Prod.mk.injEq] at h
      rw [← h.1]
      simp only [List.length_drop]
      omega

theorem slcAux_length : ∀ (s rem : List Char), slcAux s = some rem →
    rem.length ≤ s.length := by
  intro s rem h
  exact (slcAux_suffix s rem h).length_le

theorem mlcAux_length : ∀ (s rem : List Char), mlcAux s = some rem →
    rem.length ≤ s.length := by
  intro s rem h
  exact (mlcAux_suffix s rem h).length_le

theorem single_line_comment_shrinking : Shrinking single_line_comment := by
  intro s rem v h
  cases s with
  | nil => simp [single_line_comment] at h
  | cons c1 s1 =>
    cases s1 with
    | nil => simp [single_line_comment] at h
    | cons c2 rest =>
      simp only [single_line_comment] at h
      split at h
      · split at h
        · next rem2 heq =>
          simp only [Option.some.injEq, Prod.mk.injEq] at h
          have := slcAux_length rest rem2 heq
          rw [← h.1]
          simp only [List.length_cons]
          omega
        · simp only [Option.some.injEq, Prod.mk.injEq] at h
          rw [← h.1]
          simp
      · exact absurd h (by simp)

theorem multi_line_comment_shrinking : Shrinking multi_line_comment := by
  intro s rem v h
  cases s with
  | nil => simp [multi_line_comment] at h
  | cons c1 s1 =>
    cases s1 with
    | nil => simp [multi_line_comment] at h
    | cons c2 rest =>
      simp only [multi_line_comment] at h
      split at h
      · split at h
        · next rem2 heq =>
          simp only [Option.some.injEq, Prod.mk.injEq] at h
          have := mlcAux_length rest rem2 heq
          rw [← h.1]
          simp only [List.length_cons]
          omega
        · exact absurd h (by simp)
      · exact absurd h (by simp)

theorem choice_shrinking {p q : Parser α} (hp : Shrinking p) (hq : Shrinking q) :
    Shrinking (Choice.parse p q) := by
  intro s rem v h
  simp only [Choice.parse] at h
  split at h
  · exact hp s rem v h
  · exact hq s rem v h

theorem comments_shrinking : Shrinking comments :=
  choice_shrinking single_line_comment_shrinking multi_line_comment_shrinking

/-! ## Termination and output of the repetition loop -/

/-- With a shrinking inner parser and more fuel than the input is long, the
loop of `ZeroOrMore::parse` terminates with a success whose values extend
the accumulator in encounter order. -/
theorem zeroOrMore_run_total {p : Parser α} (hp : Shrinking p) :
    ∀ (fuel : Nat) (s : List Char), s.length < fuel → ∀ (acc : List α),
      ∃ rem vs, ZeroOrMore.run p fuel s acc = some (rem, acc ++ vs) ∧
        Accum p s rem vs := by
  intro fuel
  induction fuel with
  | zero => intro s h; omega
  | succ n ih =>
    intro s hlen acc
    cases hps : p s with
    | none =>
      refine ⟨s, [], ?_, Accum.stop s hps⟩
      simp [ZeroOrMore.run, hps]
    | some r =>
      obtain ⟨s', v⟩ := r
      have hlt : s'.length < s.length := hp s s' v hps
      obtain ⟨rem, vs, hrun, hacc⟩ := ih s' (by omega) (acc ++ [v])
      refine ⟨rem, v :: vs, ?_, Accum.step s s' rem v vs hps hacc⟩
      simp only [ZeroOrMore.run, hps]
      simpa using hrun

/-- `ZeroOrMore::parse` with a shrinking inner parser always succeeds and
accumulates the successive values in encounter order. -/
theorem zeroOrMore_total {p : Parser α} (hp : Shrinking p) (s : List Char) :
    ∃ rem vs, ZeroOrMore.parse p s = some (rem, vs) ∧ Accum p s rem vs := by
  obtain ⟨rem, vs, hrun, hacc⟩ :=
    zeroOrMore_run_total hp (s.length + 1) s (by omega) []
  exact ⟨rem, vs, by simpa [ZeroOrMore.parse] using hrun, hacc⟩

/-- `ignored` always succeeds, and its remaining input is a suffix. -/
theorem ignored_total (s : List Char) :
    ∃ rem, ignored s = some (rem, ()) ∧ rem <:+ s := by
  obtain ⟨rem, vs, hrun, -⟩ :=
    zeroOrMore_total (choice_shrinking whitespace_shrinking comments_shrinking) s
  refine ⟨rem, ?_, ignored_suffix s rem () ?_⟩
  · simp [ignored, map, Bind.parse, Constant.parse, hrun]
  · simp [ignored, map, Bind.parse, Constant.parse, hrun]

theorem number_base_suffix : SuffixPP number_base := by
  intro s rem v h
  simp only [number_base] at h
  split at h
  · exact absurd h (by simp)
  · split at h
    · simp only [PRes.res.injEq, Option.some.injEq, Prod.mk.injEq] at h
      exact h.1 ▸ List.drop_suffix _ s
    · exact absurd h (by simp)

theorem number_suffix : SuffixPP number := by
  intro s rem v h
  simp only [number, Bind.pparse] at h
  split at h
  · exact absurd h (by simp)
  · exact absurd h (by simp)
  · next rem1 v1 heq =>
    obtain ⟨rem2, hig, hsuf⟩ := ignored_total rem1
    simp only [And.pparse, liftP, hig, Constant.pparse, PRes.res.injEq,
      Option.some.injEq, Prod.mk.injEq] at h
    exact h.1 ▸ hsuf.trans (number_base_suffix s rem1 v1 heq)

/-- Where the scan of `multi_line_comment` lands: either no closing marker
occurs and the scan signals no match, or the input splits around the first
closing marker and the scan returns exactly what follows it. -/
theorem mlcAux_spec : ∀ s : List Char,
    (mlcAux s = none ∧ ∀ pre post : List Char, s ≠ pre ++ '*' :: '/' :: post) ∨
    (∃ pre rem, mlcAux s = some rem ∧ s = pre ++ '*' :: '/' :: rem ∧
      ∀ p q : List Char, pre ≠ p ++ '*' :: '/' :: q) := by
  intro s
  induction s with
  | nil =>
    left
    refine ⟨rfl, fun pre post h => ?_⟩
    have := congrArg List.length h
    simp [List.length_append] at this
    omega
  | cons c rest ih =>
    cases rest with
    | nil =>
      left
      refine ⟨rfl, fun pre post h => ?_⟩
      have := congrArg List.length h
      simp [List.length_append] at this
      omega
    | cons c2 rest2 =>
      by_cases hc : c = '*' ∧ c2 = '/'
      · right
        refine ⟨[], rest2, ?_, ?_, fun p q hpq => ?_⟩
        · simp only [mlcAux]
          rw [if_pos hc]
        · simp [hc.1, hc.2]
        · have := congrArg List.length hpq
          simp [List.length_append] at this
          omega
      · have heq : mlcAux (c :: c2 :: rest2) = mlcAux (c2 :: rest2) := by
          simp only [mlcAux]
          rw [if_neg hc]
        rcases ih with ⟨hnone, hno⟩ | ⟨pre, rem, hsome, hdec, hmin⟩
        · left
          refine ⟨heq.trans hnone, fun pre post hdec => ?_⟩
          cases pre with
          | nil =>
            simp only [List.nil_append, List.cons.injEq] at hdec
            exact hc ⟨hdec.1, hdec.2.1⟩
          | cons p0 pre' =>
            simp only [List.cons_append, List.cons.injEq] at hdec
            exact hno pre' post hdec.2
        · right
          refine ⟨c :: pre, rem, heq.trans hsome, ?_, fun p q hpq => ?_⟩
          · rw [List.cons_append, ← hdec]
          · cases p with
            | nil =>
              simp only [List.nil_append, List.cons.injEq] at hpq
              obtain ⟨hc1, hpre⟩ := hpq
              rw [hpre] at hdec
              simp only [List.cons_append, List.cons.injEq] at hdec
              exact hc ⟨hc1, hdec.1⟩
            | cons p0 p' =>
              simp only [List.cons_append, List.cons.injEq] at hpq
              exact hmin p' q hpq.2

/-! ## The claims -/

/-- C1: the claim says `parse_to_completion` returns the parsed value
exactly when the parser succeeds with empty remaining input, and fails
otherwise.  The code does the opposite — its match arms are swapped: a
success with empty remaining input maps to `Err` and a success with
non-empty remaining input maps to `Ok`.  This theorem evaluates the code as
written at both kinds of input: `id` on `"foo"` succeeds consuming the whole
input yet `parse_to_completion` fails, and `id` on `"foo,bar"` succeeds
leaving `",bar"` yet `parse_to_completion` returns the value. -/
theorem claim_C1 :
    Funpiler.id (String.toList "foo") = some ([], String.toList "foo") ∧
    parse_to_completion Funpiler.id (String.toList "foo") = none ∧
    Funpiler.id (String.toList "foo,bar") =
      some (String.toList ",bar", String.toList "foo") ∧
    parse_to_completion Funpiler.id (String.toList "foo,bar") =
      some (String.toList "foo") :=
  ⟨rfl, rfl, rfl, rfl⟩

/-- C2: the claim says `token("if", boundary=true)` fails on `"ifx"` (which
holds) and succeeds on `"if ("` leaving exactly `"("` (which fails on the
code: `TokenBase::parse` slices the original input at byte offset
`idx + ch.len_utf8()` where `idx` is an index into the suffix after the
literal, i.e. at offset 1, so the remaining input is `"f ("`). -/
theorem claim_C2 :
    token (String.toList "if") true (String.toList "ifx") = none ∧
    token (String.toList "if") true (String.toList "if (") =
      some (String.toList "f (", String.toList "if") :=
  ⟨rfl, rfl⟩

/-- C3: for every recognizer and combinator of the library, a successful
parse leaves a remaining input that is a suffix of (hence never longer
than) the input given to the attempt, and every combinator preserves the
property of its sub-parsers. -/
theorem claim_C3 :
    SuffixP whitespace ∧ SuffixP single_line_comment ∧ SuffixP multi_line_comment ∧
    SuffixP comments ∧ SuffixP ignored ∧
    (∀ (tk : List Char) (ws : Bool), SuffixP (TokenBase.parse tk ws)) ∧
    (∀ (tk : List Char) (ws : Bool), SuffixP (token tk ws)) ∧
    SuffixP id_base ∧ SuffixP Funpiler.id ∧
    SuffixPP number_base ∧ SuffixPP number ∧
    (∀ (α : Type) (v : α), SuffixP (Constant.parse v)) ∧
    (∀ (α : Type) (p q : Parser α), SuffixP p → SuffixP q → SuffixP (Choice.parse p q)) ∧
    (∀ (α β : Type) (p : Parser α) (f : α → Parser β),
      SuffixP p → (∀ v, SuffixP (f v)) → SuffixP (Bind.parse p f)) ∧
    (∀ (α β : Type) (p : Parser α) (q : Parser β),
      SuffixP p → SuffixP q → SuffixP (And.parse p q)) ∧
    (∀ (α : Type) (p : Parser α), SuffixP p → SuffixP (Maybe.parse p)) ∧
    (∀ (α β : Type) (p : Parser α) (f : α → β), SuffixP p → SuffixP (map p f)) ∧
    (∀ (α : Type) (p : Parser α), SuffixP p → SuffixP (ZeroOrMore.parse p)) ∧
    (∀ (α : Type) (p : Parser α), SuffixP p →
      ∀ s rem v, p s = some (rem, v) → rem.length ≤ s.length) :=
  ⟨whitespace_suffix, single_line_comment_suffix, multi_line_comment_suffix,
    comments_suffix, ignored_suffix, tokenBase_suffix, token_suffix,
    id_base_suffix, id_suffix, number_base_suffix, number_suffix,
    fun _ v => constant_suffix v,
    fun _ _ _ hp hq => choice_suffix hp hq,
    fun _ _ _ _ hp hf => bind_suffix hp hf,
    fun _ _ _ _ hp hq => and_suffix hp hq,
    fun _ _ hp => maybe_suffix hp,
    fun _ _ _ _ hp => map_suffix hp,
    fun _ _ hp => zeroOrMore_suffix hp,
    fun _ _ hp s rem v h => (hp s rem v h).length_le⟩

/-- C4: on an input beginning with the opening marker, the block-comment
recognizer signals no match when no closing marker follows (never a
partial token), and when one does follow it succeeds, consuming from the
opening marker through the (first) matching closing marker. -/
theorem claim_C4 :
    (∀ rest : List Char, (¬ ∃ pre post, rest = pre ++ '*' :: '/' :: post) →
      multi_line_comment ('/' :: '*' :: rest) = none) ∧
    (∀ rest pre post : List Char, rest = pre ++ '*' :: '/' :: post →
      ∃ rem, multi_line_comment ('/' :: '*' :: rest) = some (rem, ()) ∧
        ∃ pre2, rest = pre2 ++ '*' :: '/' :: rem ∧
          ∀ p q : List Char, pre2 ≠ p ++ '*' :: '/' :: q) := by
  constructor
  · intro rest hno
    rcases mlcAux_spec rest with ⟨hnone, -⟩ | ⟨pre, rem, -, hdec, -⟩
    · simp [multi_line_comment, hnone]
    · exact absurd ⟨pre, rem, hdec⟩ hno
  · intro rest pre post hdec
    rcases mlcAux_spec rest with ⟨-, hno⟩ | ⟨pre2, rem, hsome, hdec2, hmin⟩
    · exact absurd hdec (hno pre post)
    · exact ⟨rem, by simp [multi_line_comment, hsome], pre2, hdec2, hmin⟩

/-- C5: for every inner parser that consumes at least one character
whenever it succeeds, `ZeroOrMore::parse` terminates on every input (the
fuelled loop returns within `input.length + 1` rounds) and succeeds,
accumulating the successive values in encounter order (`Accum`), possibly
as the empty sequence; and the repetition-wrapped lexical recognizers —
`whitespace`, the comment alternation, and `whitespace.or(comments)` as
wrapped inside `ignored` — satisfy the precondition. -/
theorem claim_C5 :
    (∀ (α : Type) (p : Parser α), Shrinking p → ∀ s, ∃ rem vs,
      ZeroOrMore.parse p s = some (rem, vs) ∧ Accum p s rem vs) ∧
    Shrinking whitespace ∧ Shrinking comments ∧
    Shrinking (Choice.parse whitespace comments) :=
  ⟨fun _ _ hp s => zeroOrMore_total hp s, whitespace_shrinking, comments_shrinking,
    choice_shrinking whitespace_shrinking comments_shrinking⟩

/-- C6: `number` on `"123abc"` succeeds with value `123` and remaining
`"abc"` (no trailing boundary required); `id` on `"1foo"` fails; `id` on
`"_foo1 bar"` succeeds with value `"_foo1"` and remaining `"bar"`. -/
theorem claim_C6 :
    number (String.toList "123abc") = PRes.res (some (String.toList "abc", 123)) ∧
    Funpiler.id (String.toList "1foo") = none ∧
    Funpiler.id (String.toList "_foo1 bar") =
      some (String.toList "bar", String.toList "_foo1") :=
  ⟨rfl, rfl, rfl⟩

/-- C7: `ignored` always succeeds, and on `" \t\n// c\n/* c2 */rest"` it
leaves exactly `"rest"` remaining. -/
theorem claim_C7 :
    (∀ s, ∃ rem, ignored s = some (rem, ())) ∧
    ignored (String.toList " \t\n// c\n/* c2 */rest") =
      some (String.toList "rest", ()) := by
  constructor
  · intro s
    obtain ⟨rem, h1, -⟩ := ignored_total s
    exact ⟨rem, h1⟩
  · rfl

/-- C8: alternation returns the left parser's result whenever the left
parser succeeds, and exactly the result of running the right parser on the
original, unconsumed input when the left parser signals no match. -/
theorem claim_C8 : ∀ (α : Type) (p q : Parser α) (s : List Char),
    ((p s).isSome → Choice.parse p q s = p s) ∧
    (p s = none → Choice.parse p q s = q s) := by
  intro α p q s
  constructor
  · intro h
    simp [Choice.parse, h]
  · intro h
    simp [Choice.parse, h]

/-- C9: on a run of twenty `'9'` digits — a value beyond the `i64` range —
the number recognizer's digit scan takes all twenty characters, the
literal-to-integer conversion returns `Err` (`none`), and `number` panics
(the `unwrap` of that `Err`) instead of returning a value or the no-match
signal. -/
theorem claim_C9 :
    number (List.replicate 20 '9') = PRes.panics ∧
    numEnd (List.replicate 20 '9') = 20 ∧
    parseI64 (List.replicate 20 '9') = none :=
  ⟨rfl, rfl, rfl⟩

/-- C10: `arguments` panics on every input: its left alternation branch
binds through `expression`, whose body is `todo!()`, and `Choice::parse`
evaluates the left branch first, so the constant empty-list fallback is
never reached. -/
theorem claim_C10 : ∀ source : List Char, arguments source = PRes.panics :=
  fun _ => rfl

end Funpiler
